import Mathlib

namespace Squoosh

/-!
Verification of the squoosh CLI's encoder-resolution and batch-processing
pipeline against its natural-language specification.

The TypeScript sources are shallowly embedded:
* JS strings are modelled as `String` / `List Char`;
* Node `path.posix` helpers (`dirname`, `parse(..).name`, `relative`, `join`)
  are modelled character-by-character for normalized posix inputs;
* filesystem effects of the atomic writer are modelled as an explicit
  operation trace (`FsOp`) interpreted over a map from paths to contents;
* JS numbers reaching the quality mapper are modelled as `ℚ` (all arithmetic
  performed by the mapper on its integer-range inputs is exact in binary
  floating point, and `Math.round` is `fun x => ⌊x + 1/2⌋`);
* fallible external collaborators (dynamic `import`, the `ImagePool`
  constructor, per-codec encodes, per-job encode/copy work, `fs.readFile`
  plus `JSON.parse`) are modelled as explicit environment parameters.
-/

/-! ### Character-list utilities

`splitOnChar` / `intercalateChar` model how posix path strings decompose into
`/`-separated segments.  They are the workhorses for the `path` module
embedding below. -/

def splitOnChar (sep : Char) : List Char → List (List Char)
  | [] => [[]]
  | c :: cs =>
    match splitOnChar sep cs with
    | [] => [[]]
    | r :: rs => if c = sep then [] :: r :: rs else (c :: r) :: rs

def intercalateChar (sep : Char) : List (List Char) → List Char
  | [] => []
  | [p] => p
  | p :: q :: ps => p ++ sep :: intercalateChar sep (q :: ps)

/-! ### Embedding of `src/lib/fs.ts` — temp paths and the atomic writer

`getTempPath` appends `.tmp-<pid>-<now>-<randomhex>` to the target path; the
stamp is taken as an explicit parameter (its three components come from
`process.pid`, `Date.now()` and `Math.random`, none of which can contain a
slash).  `writeFileAtomic` / `copyFileAtomic` are modelled as the exact trace
of filesystem operations they issue, interpreted over a map from paths to
file contents. -/

def getTempPath (targetPath : String) (stamp : String) : String :=
  targetPath ++ ".tmp-" ++ stamp

/-- Node `path.posix.dirname` on a character list, for inputs without a
trailing slash: everything before the last `/`; `.` when there is no slash;
`/` when the only slash is leading. -/

def dirnameChars (p : List Char) : List Char :=
  match p.reverse.dropWhile (fun c => c != '/') with
  | [] => ['.']
  | [_] => ['/']
  | _ :: rest => rest.reverse

def dirname (p : String) : String := ⟨dirnameChars p.data⟩

/-- One filesystem operation issued by the atomic writer. -/

inductive FsOp where
  | mkdirp (dir : String)
  | write (path : String) (data : List Nat)
  | copy (src : String) (path : String)
  | rename (src : String) (path : String)
deriving DecidableEq

/-- Trace of `writeFileAtomic` (fs.ts lines 13-18): ensure the parent
directory, write the bytes to the temp sibling, rename onto the target. -/

def writeFileAtomicOps (targetPath : String) (data : List Nat) (stamp : String) : List FsOp :=
  [FsOp.mkdirp (dirname targetPath),
   FsOp.write (getTempPath targetPath stamp) data,
   FsOp.rename (getTempPath targetPath stamp) targetPath]

/-- Trace of `copyFileAtomic` (fs.ts lines 20-25). -/

def copyFileAtomicOps (sourcePath targetPath : String) (stamp : String) : List FsOp :=
  [FsOp.mkdirp (dirname targetPath),
   FsOp.copy sourcePath (getTempPath targetPath stamp),
   FsOp.rename (getTempPath targetPath stamp) targetPath]

/-- Interpret one operation over a filesystem state (a map from path to
optional contents).  `mkdirp` does not change any file contents. -/

def applyOp (fs : String → Option (List Nat)) : FsOp → String → Option (List Nat)
  | FsOp.mkdirp _ => fs
  | FsOp.write p d => fun q => if q = p then some d else fs q
  | FsOp.copy s p => fun q => if q = p then fs s else fs q
  | FsOp.rename s p => fun q => if q = p then fs s else if q = s then none else fs q

def applyOps (fs : String → Option (List Nat)) : List FsOp → String → Option (List Nat)
  | [] => fs
  | op :: ops => applyOps (applyOp fs op) ops

/-! ### Embedding of the `node:path` helpers used by `buildOutputPath`

All paths produced by the CLI's discovery stage are absolute, normalized
posix paths, so the `path.posix` helpers are modelled for such inputs
(no backslash separators, no repeated separators, no trailing slash). -/

/-- `path.basename`: the part after the last `/` (the whole input when it has
no slash). -/

def basenameChars (p : List Char) : List Char :=
  (p.reverse.takeWhile (fun c => c != '/')).reverse

/-- `path.parse(p).name`: the basename with its final extension removed; a
dot at position 0 of the basename does not start an extension. -/

def parseNameChars (p : List Char) : List Char :=
  let base := basenameChars p
  match base.reverse.dropWhile (fun c => c != '.') with
  | [] => base
  | _ :: rest => if rest = [] then base else rest.reverse

/-- The `/`-separated segments of an absolute normalized path (the empty
chunks produced by the leading slash are discarded). -/

def absSegments (p : List Char) : List (List Char) :=
  (splitOnChar '/' p).filter (fun c => c != [])

/-- Core of `path.posix.relative` on segment lists: drop the common leading
segments, then one `..` per remaining `from`-segment followed by the
remaining `to`-segments. -/

def relComps : List (List Char) → List (List Char) → List (List Char)
  | [], ts => ts
  | f :: fs, [] => (f :: fs).map (fun _ => ['.', '.'])
  | f :: fs, t :: ts =>
    if f = t then relComps fs ts
    else (f :: fs).map (fun _ => ['.', '.']) ++ t :: ts

/-- `path.posix.relative` for absolute normalized inputs. -/

def pathRelativeChars (fromP toP : List Char) : List Char :=
  intercalateChar '/' (relComps (absSegments fromP) (absSegments toP))

/-- `path.posix` segment normalization: empty and `.` segments are dropped,
`..` pops the previous segment (it accumulates at the top of a relative
path and is discarded at the root of an absolute one). -/

def normSegs (absolute : Bool) : List (List Char) → List (List Char) → List (List Char)
  | acc, [] => acc.reverse
  | acc, s :: ss =>
    if s = [] ∨ s = ['.'] then normSegs absolute acc ss
    else if s = ['.', '.'] then
      match acc with
      | [] => if absolute then normSegs absolute [] ss else normSegs absolute [s] ss
      | a :: as =>
        if a = ['.', '.'] then normSegs absolute (s :: a :: as) ss
        else normSegs absolute as ss
    else normSegs absolute (s :: acc) ss

/-- `path.posix.join`: the non-empty parts are joined with `/` and the result
is normalized; an empty join yields `.`. -/

def pathJoinChars (parts : List (List Char)) : List Char :=
  let joined := intercalateChar '/' (parts.filter (fun p => p != []))
  if joined = [] then ['.']
  else
    let absolute := joined.head? == some '/'
    let segs := normSegs absolute [] (splitOnChar '/' joined)
    let core := intercalateChar '/' segs
    if absolute then (if core = [] then ['/'] else '/' :: core)
    else (if core = [] then ['.'] else core)

/-- `buildOutputPath` (fs.ts lines 54-72) on character lists: output filename
is `<basename without extension>-squoosh.<outputExt>`; in directory mode the
input file's location relative to `inputRoot` is preserved under
`outputRoot`. -/

def buildOutputPathChars (inputFile inputRoot outputRoot : List Char)
    (isDirectory : Bool) (outputExt : List Char) : List Char :=
  let baseName := parseNameChars inputFile
  let fileName := baseName ++ "-squoosh.".data ++ outputExt
  if !isDirectory then pathJoinChars [outputRoot, fileName]
  else
    let relativePath := pathRelativeChars inputRoot inputFile
    let relativeDir := dirnameChars relativePath
    pathJoinChars [outputRoot, relativeDir, fileName]

/-- `buildOutputPath` on strings (the form the CLI calls). -/

def buildOutputPath (inputFile inputRoot outputRoot : String)
    (isDirectory : Bool) (outputExt : String) : String :=
  ⟨buildOutputPathChars inputFile.data inputRoot.data outputRoot.data isDirectory outputExt.data⟩

/-- A well-formed path segment: non-empty, slash-free, and not one of the
special `.` / `..` segments. -/

def goodComp (c : List Char) : Prop :=
  c ≠ [] ∧ '/' ∉ c ∧ c ≠ ['.'] ∧ c ≠ ['.', '.']

instance (c : List Char) : Decidable (goodComp c) := by
  unfold goodComp
  infer_instance

/-- The absolute normalized path with the given segments. -/

def absPath (comps : List (List Char)) : List Char :=
  '/' :: intercalateChar '/' comps

/-! ### Embedding of `src/lib/encoders.ts`

JS numbers reaching `mapQualityToAvifCq` are modelled as `ℚ`; `Math.round`
rounds half toward positive infinity, i.e. `fun x => ⌊x + 1/2⌋`. -/

def jsRound (x : ℚ) : ℤ := ⌊x + 1 / 2⌋

/-- The piecewise-linear `cq` curve of `mapQualityToAvifCq` (encoders.ts
lines 112-124), applied to the already-clamped quality `q`. -/

def avifCqCurve (q : ℚ) : ℚ :=
  if 75 ≤ q then 30 + (10 - 30) * ((q - 75) / 25)
  else if 50 ≤ q then 40 + (30 - 40) * ((q - 50) / 25)
  else if 25 ≤ q then 50 + (40 - 50) * ((q - 25) / 25)
  else 60 + (50 - 60) * ((q - 1) / 24)

/-- `mapQualityToAvifCq` (encoders.ts lines 108-127): clamp the quality into
[1,100], evaluate the piecewise-linear curve, round to the nearest integer,
clamp into [0,63]. -/

def mapQualityToAvifCq (quality : ℚ) : ℤ :=
  let q := min 100 (max 1 quality)
  min 63 (max 0 (jsRound (avifCqCurve q)))

inductive EncoderId where
  | avif | browserGif | browserJpeg | browserPng | jxl
  | mozjpeg | oxipng | qoi | webp | wp2 | original
deriving DecidableEq, Repr

inductive EncoderType where
  | squoosh | sharp | copy | unsupported
deriving DecidableEq, Repr

inductive SharpFormat where
  | jpeg | png | webp | avif
deriving DecidableEq, Repr

structure EncoderOption where
  id : EncoderId
  label : String
  ext : String
  lossy : Bool
  supportsQuality : Bool
  encoderType : EncoderType
  squooshCodec : Option String := none
  sharpFormat : Option SharpFormat := none
  isFallback : Option Bool := none
deriving DecidableEq, Repr

structure SquooshSupport where
  mozjpeg : Bool
  webp : Bool
  avif : Bool
  oxipng : Bool
  jxl : Bool
  wp2 : Bool
deriving DecidableEq, Repr

/-- `getMenuOptions` (encoders.ts lines 129-234): the static 11-entry format
catalog, resolved against the capability set. -/

def getMenuOptions (support : SquooshSupport) : List EncoderOption :=
  let mozjpegUsesSquoosh := support.mozjpeg
  [{ id := EncoderId.avif, label := "AVIF", ext := "avif",
     lossy := true, supportsQuality := true,
     encoderType := if support.avif then EncoderType.squoosh else EncoderType.sharp,
     squooshCodec := if support.avif then some "avif" else none,
     sharpFormat := if support.avif then none else some SharpFormat.avif },
   { id := EncoderId.browserGif, label := "Browser GIF", ext := "gif",
     lossy := true, supportsQuality := false,
     encoderType := EncoderType.unsupported },
   { id := EncoderId.browserJpeg, label := "Browser JPEG", ext := "jpg",
     lossy := true, supportsQuality := true,
     encoderType := EncoderType.sharp, sharpFormat := some SharpFormat.jpeg },
   { id := EncoderId.browserPng, label := "Browser PNG", ext := "png",
     lossy := false, supportsQuality := false,
     encoderType := EncoderType.sharp, sharpFormat := some SharpFormat.png },
   { id := EncoderId.jxl, label := "JPEG XL (beta)", ext := "jxl",
     lossy := true, supportsQuality := true,
     encoderType := if support.jxl then EncoderType.squoosh else EncoderType.unsupported,
     squooshCodec := if support.jxl then some "jxl" else none },
   { id := EncoderId.mozjpeg,
     label := if mozjpegUsesSquoosh then "MozJPEG" else "JPEG fallback (not true MozJPEG)",
     ext := "jpg", lossy := true, supportsQuality := true,
     encoderType := if mozjpegUsesSquoosh then EncoderType.squoosh else EncoderType.sharp,
     squooshCodec := if mozjpegUsesSquoosh then some "mozjpeg" else none,
     sharpFormat := if mozjpegUsesSquoosh then none else some SharpFormat.jpeg,
     isFallback := some (!mozjpegUsesSquoosh) },
   { id := EncoderId.oxipng, label := "OxiPNG", ext := "png",
     lossy := false, supportsQuality := false,
     encoderType := if support.oxipng then EncoderType.squoosh else EncoderType.unsupported,
     squooshCodec := if support.oxipng then some "oxipng" else none },
   { id := EncoderId.qoi, label := "QOI", ext := "qoi",
     lossy := false, supportsQuality := false,
     encoderType := EncoderType.unsupported },
   { id := EncoderId.webp, label := "WebP", ext := "webp",
     lossy := true, supportsQuality := true,
     encoderType := if support.webp then EncoderType.squoosh else EncoderType.sharp,
     squooshCodec := if support.webp then some "webp" else none,
     sharpFormat := if support.webp then none else some SharpFormat.webp },
   { id := EncoderId.wp2, label := "WebP v2 (unstable)", ext := "wp2",
     lossy := true, supportsQuality := true,
     encoderType := if support.wp2 then EncoderType.squoosh else EncoderType.unsupported,
     squooshCodec := if support.wp2 then some "wp2" else none },
   { id := EncoderId.original, label := "Original image (copy)", ext := "original",
     lossy := false, supportsQuality := false,
     encoderType := EncoderType.copy }]

/-- `getSquooshEncodeOptions` (encoders.ts lines 236-256) as the key/value
record it returns; numeric values as `ℚ`. -/

def getSquooshEncodeOptions (id : EncoderId) (quality : ℚ) : List (String × ℚ) :=
  match id with
  | EncoderId.mozjpeg => [("quality", quality)]
  | EncoderId.webp => [("quality", quality)]
  | EncoderId.avif => [("cqLevel", (mapQualityToAvifCq quality : ℚ))]
  | EncoderId.oxipng => [("level", 4)]
  | EncoderId.jxl => [("quality", quality)]
  | EncoderId.wp2 => [("quality", quality)]
  | _ => []

/-! ### Capability detection (`detectSquooshSupport`, encoders.ts lines 44-106)

The external collaborators are modelled as an environment:
`importResult = none` models the dynamic `import('@squoosh/lib')` throwing
(caught at lines 76-85); `importResult = some none` models the import
succeeding but `new ImagePoolCtor(1)` (line 87, outside any try/catch)
throwing; `importResult = some (some pool)` models a constructed pool whose
per-codec probe encodes have the outcomes recorded in `pool`.  The returned
`Except` carries an escaped exception as `.error`; the returned list is the
trace of codecs actually probed. -/

/-- Outcome of `image.encode` plus the `encodedWith[codec]` lookup inside
`trySquooshEncode`: the encode threw, or the codec entry / binary was
missing, or a binary of the given bytes was produced. -/

inductive EncodeOutcome where
  | threw
  | missing
  | ok (binary : List Nat)
deriving DecidableEq, Repr

structure PoolEnv where
  encode : String → EncodeOutcome

structure DetectEnv where
  nodeMajor : Nat
  importResult : Option (Option PoolEnv)

/-- `trySquooshEncode` (encoders.ts lines 44-57): true only when the encode
succeeded and produced a non-empty binary; exceptions are caught and give
false. -/

def trySquooshEncode (pool : PoolEnv) (codec : String) : Bool :=
  match pool.encode codec with
  | EncodeOutcome.threw => false
  | EncodeOutcome.missing => false
  | EncodeOutcome.ok binary => binary.length != 0

def noSupport : SquooshSupport :=
  { mozjpeg := false, webp := false, avif := false,
    oxipng := false, jxl := false, wp2 := false }

/-- The six probes of encoders.ts lines 97-102, in source order. -/

def squooshProbeOrder : List String :=
  ["mozjpeg", "webp", "avif", "oxipng", "jxl", "wp2"]

def probeAll (pool : PoolEnv) : SquooshSupport :=
  { mozjpeg := trySquooshEncode pool "mozjpeg",
    webp := trySquooshEncode pool "webp",
    avif := trySquooshEncode pool "avif",
    oxipng := trySquooshEncode pool "oxipng",
    jxl := trySquooshEncode pool "jxl",
    wp2 := trySquooshEncode pool "wp2" }

/-- `detectSquooshSupport` (encoders.ts lines 59-106).  Node >= 20 and a
failed module import both return all-false without probing; a constructed
pool is probed on all six codecs in order; an exception from the `ImagePool`
constructor itself is not caught and escapes as `.error`. -/

def detectSquooshSupport (env : DetectEnv) : Except String (SquooshSupport × List String) :=
  if 20 ≤ env.nodeMajor then Except.ok (noSupport, [])
  else
    match env.importResult with
    | none => Except.ok (noSupport, [])
    | some none => Except.error "ImagePool constructor threw"
    | some (some pool) => Except.ok (probeAll pool, squooshProbeOrder)

/-! ### Embedding of the batch runner (`processImages`, src/lib/process.ts)

Claims C4 and C7 concern the downgrade and skip accounting, not the
interleaving of the bounded-concurrency pool, so the job fan-out is modelled
as the file-by-file, encoder-by-encoder fold the source performs inside each
unit of work.  The external collaborators are an environment: `poolCtorOk`
models whether `new module.ImagePool(concurrency)` inside the batch-time
try/catch succeeds, and `jobOk` models the success of each individual
encode/copy job (encode errors, I/O errors).  Wall-clock runtime is omitted.
The summary additionally records the trace of attempted jobs. -/

structure QualityConfig where
  defaultQuality : ℚ
  overrides : EncoderId → Option ℚ

/-- `getQualityForEncoder` (process.ts lines 34-36):
`quality.overrides[encoder.id] ?? quality.default`. -/

def getQualityForEncoder (encoder : EncoderOption) (quality : QualityConfig) : ℚ :=
  (quality.overrides encoder.id).getD quality.defaultQuality

structure ProcessEnv where
  poolCtorOk : Bool
  jobOk : String → EncoderOption → ℚ → Bool

structure BatchState where
  outputsByEncoder : EncoderId → Nat
  failures : List (String × String)
  jobs : List (String × EncoderId)

structure ProcessSummary where
  totalInputs : Nat
  outputsByEncoder : EncoderId → Nat
  failures : List (String × String)
  unsupported : List (EncoderId × String × Nat)
  jobs : List (String × EncoderId)

/-- The body of the per-encoder loop (process.ts lines 164-199): attempt the
job; on success increment the encoder's output counter, on failure record
the input file with the encoder's label. -/

def processOneJob (env : ProcessEnv) (quality : QualityConfig) (file : String)
    (st : BatchState) (enc : EncoderOption) : BatchState :=
  if env.jobOk file enc (getQualityForEncoder enc quality) then
    { st with
      outputsByEncoder :=
        Function.update st.outputsByEncoder enc.id (st.outputsByEncoder enc.id + 1),
      jobs := st.jobs ++ [(file, enc.id)] }
  else
    { st with
      failures := st.failures ++ [(file, enc.label)],
      jobs := st.jobs ++ [(file, enc.id)] }

/-- `activeEncoders` before pool construction (process.ts line 130). -/

def activeEncodersInit (encoders : List EncoderOption) : List EncoderOption :=
  encoders.filter (fun enc => enc.encoderType != EncoderType.unsupported)

/-- Initial `unsupported` accounting (process.ts lines 131-137). -/

def unsupportedInit (encoders : List EncoderOption) (n : Nat) :
    List (EncoderId × String × Nat) :=
  (encoders.filter (fun enc => enc.encoderType == EncoderType.unsupported)).map
    (fun enc => (enc.id, enc.label, n))

/-- `needsSquoosh` (process.ts line 139). -/

def needsSquoosh (encoders : List EncoderOption) : Bool :=
  (activeEncodersInit encoders).any (fun enc => enc.encoderType == EncoderType.squoosh)

/-- Whether the batch-time `new module.ImagePool(...)` attempt failed
(process.ts lines 141-156): the pool is only constructed when some active
encoder needs it, and the failure is caught. -/

def poolFailed (env : ProcessEnv) (encoders : List EncoderOption) : Bool :=
  needsSquoosh encoders && !env.poolCtorOk

/-- `activeEncoders` after the downgrade of process.ts line 147. -/

def activeEncodersFinal (env : ProcessEnv) (encoders : List EncoderOption) :
    List EncoderOption :=
  if poolFailed env encoders then
    (activeEncodersInit encoders).filter (fun enc => enc.encoderType != EncoderType.squoosh)
  else activeEncodersInit encoders

/-- `unsupported` after the downgrade of process.ts lines 146-154. -/

def unsupportedFinal (env : ProcessEnv) (encoders : List EncoderOption) (n : Nat) :
    List (EncoderId × String × Nat) :=
  if poolFailed env encoders then
    unsupportedInit encoders n ++
      ((activeEncodersInit encoders).filter
          (fun enc => enc.encoderType == EncoderType.squoosh)).map
        (fun enc => (enc.id, enc.label, n))
  else unsupportedInit encoders n

/-- `processImages` (process.ts lines 103-220): split the selection into
active and unsupported encoders, attempt the batch-time pool construction
when any active encoder needs the advanced provider and downgrade all
squoosh encoders into the unsupported accounting if it fails, then run the
(file x encoder) fan-out and assemble the summary. -/

def processImages (env : ProcessEnv) (inputFiles : List String)
    (encoders : List EncoderOption) (quality : QualityConfig) : ProcessSummary :=
  let final := inputFiles.foldl
    (fun st file =>
      (activeEncodersFinal env encoders).foldl (processOneJob env quality file) st)
    { outputsByEncoder := fun _ => 0, failures := [], jobs := [] }
  { totalInputs := inputFiles.length,
    outputsByEncoder := final.outputsByEncoder,
    failures := final.failures,
    unsupported := unsupportedFinal env encoders inputFiles.length,
    jobs := final.jobs }

/-! ### Embedding of the CLI's saved-config handling (part_000)

`loadSavedConfig` (lines 78-85) reads and `JSON.parse`s the config file
inside a try/catch and casts the parsed value with `as SavedConfig`; the
environment value `none` models a read or parse exception (both caught).
`mainYesStep` models lines 251-261: under `--yes`, a truthy saved value has
`savedConfig.selectedIds.filter(...)` applied to it; in JS that member chain
throws a TypeError unless `selectedIds` is an array. -/

inductive Json where
  | null
  | bool (b : Bool)
  | num (q : ℚ)
  | str (s : String)
  | arr (elems : List Json)
  | obj (fields : List (String × Json))

/-- `loadSavedConfig`: a caught read/parse failure gives null (`none`); a
successfully parsed value is returned as-is — the `as SavedConfig` cast
performs no validation. -/

def loadSavedConfig (readResult : Option Json) : Option Json :=
  match readResult with
  | none => none
  | some parsed => some parsed

def isStrJson : Json → Bool
  | Json.str _ => true
  | _ => false

def isNumJson : Json → Bool
  | Json.num _ => true
  | _ => false

def jsonField (fields : List (String × Json)) (key : String) : Option Json :=
  (fields.find? (fun f => f.1 == key)).map (fun f => f.2)

/-- The `{selectedIds, quality}` schema the `SavedConfig` interface declares
(part_000 lines 21-24 with `QualityConfig` from process.ts lines 21-24):
`selectedIds` an array of strings, `quality` an object with a numeric
`default` and an object `overrides` with numeric values. -/

def matchesSavedConfigSchema (j : Json) : Bool :=
  match j with
  | Json.obj fields =>
    (match jsonField fields "selectedIds" with
      | some (Json.arr elems) => elems.all isStrJson
      | _ => false)
    && (match jsonField fields "quality" with
      | some (Json.obj qf) =>
        (match jsonField qf "default" with
          | some (Json.num _) => true
          | _ => false)
        && (match jsonField qf "overrides" with
          | some (Json.obj ov) => ov.all (fun f => isNumJson f.2)
          | _ => false)
      | _ => false)
  | _ => false

/-- JS truthiness of a JSON value (for the `if (savedConfig)` guard). -/

def jsTruthy : Json → Bool
  | Json.null => false
  | Json.bool b => b
  | Json.num q => q != 0
  | Json.str s => s != ""
  | Json.arr _ => true
  | Json.obj _ => true

/-- `savedConfig.selectedIds.filter((id) => menuOptions.some((o) => o.id === id))`
(part_000 lines 253-255): member access on a non-object yields undefined, and
calling `.filter` on anything but an array throws a TypeError. -/

def applyYesSelection (savedConfig : Json) (menuIds : List String) :
    Except String (List Json) :=
  match savedConfig with
  | Json.obj fields =>
    match jsonField fields "selectedIds" with
    | some (Json.arr elems) =>
      Except.ok (elems.filter (fun e =>
        match e with
        | Json.str s => menuIds.contains s
        | _ => false))
    | _ => Except.error "TypeError: savedConfig.selectedIds.filter is not a function"
  | _ => Except.error "TypeError: savedConfig.selectedIds.filter is not a function"

/-- The `--yes` branch of `main` (part_000 lines 251-261): with no saved
config the selection stays empty (prompting follows); with a truthy saved
config the filter chain runs on it. -/

def mainYesStep (loaded : Option Json) (menuIds : List String) :
    Except String (List Json) :=
  match loaded with
  | none => Except.ok []
  | some j => if jsTruthy j then applyYesSelection j menuIds else Except.ok []

theorem splitOnChar_ne_nil (sep : Char) (cs : List Char) : splitOnChar sep cs ≠ [] := by
  cases cs with
  | nil => simp [splitOnChar]
  | cons c cs =>
    simp only [splitOnChar]
    cases h : splitOnChar sep cs with
    | nil => simp
    | cons r rs =>
      by_cases hc : c = sep <;> simp [hc]

theorem splitOnChar_cons_sep (sep : Char) (cs : List Char) :
    splitOnChar sep (sep :: cs) = [] :: splitOnChar sep cs := by
  simp only [splitOnChar]
  cases h : splitOnChar sep cs with
  | nil => exact absurd h (splitOnChar_ne_nil sep cs)
  | cons r rs => simp

theorem splitOnChar_cons_ne (sep c : Char) (cs : List Char) (hc : c ≠ sep) :
    splitOnChar sep (c :: cs) =
      (c :: (splitOnChar sep cs).headI) :: (splitOnChar sep cs).tail := by
  simp only [splitOnChar]
  cases h : splitOnChar sep cs with
  | nil => exact absurd h (splitOnChar_ne_nil sep cs)
  | cons r rs => simp [hc, List.headI]

theorem splitOnChar_no_sep (sep : Char) (p : List Char) (h : sep ∉ p) :
    splitOnChar sep p = [p] := by
  induction p with
  | nil => rfl
  | cons c cs ih =>
    have hc : c ≠ sep := by
      intro hcc; exact h (hcc ▸ List.mem_cons_self c cs)
    have hcs : sep ∉ cs := fun hm => h (List.mem_cons_of_mem c hm)
    rw [splitOnChar_cons_ne sep c cs hc, ih hcs]
    simp [List.headI]

theorem splitOnChar_append_sep (sep : Char) (p rest : List Char) (h : sep ∉ p) :
    splitOnChar sep (p ++ sep :: rest) = p :: splitOnChar sep rest := by
  induction p with
  | nil => simpa using splitOnChar_cons_sep sep rest
  | cons c cs ih =>
    have hc : c ≠ sep := by
      intro hcc; exact h (hcc ▸ List.mem_cons_self c cs)
    have hcs : sep ∉ cs := fun hm => h (List.mem_cons_of_mem c hm)
    have := ih hcs
    rw [List.cons_append, splitOnChar_cons_ne sep c (cs ++ sep :: rest) hc, this]
    simp [List.headI]

theorem splitOnChar_intercalateChar (sep : Char) (parts : List (List Char))
    (hne : parts ≠ []) (hfree : ∀ p ∈ parts, sep ∉ p) :
    splitOnChar sep (intercalateChar sep parts) = parts := by
  induction parts with
  | nil => exact absurd rfl hne
  | cons p ps ih =>
    cases ps with
    | nil =>
      simpa [intercalateChar] using
        splitOnChar_no_sep sep p (hfree p (List.mem_cons_self p []))
    | cons q qs =>
      have hp : sep ∉ p := hfree p (List.mem_cons_self p (q :: qs))
      have hqs : ∀ r ∈ q :: qs, sep ∉ r := fun r hr => hfree r (List.mem_cons_of_mem p hr)
      rw [show intercalateChar sep (p :: q :: qs) = p ++ sep :: intercalateChar sep (q :: qs) from rfl,
        splitOnChar_append_sep sep p _ hp, ih (by simp) hqs]

theorem intercalateChar_append (sep : Char) (l₁ l₂ : List (List Char))
    (h₁ : l₁ ≠ []) (h₂ : l₂ ≠ []) :
    intercalateChar sep (l₁ ++ l₂) = intercalateChar sep l₁ ++ sep :: intercalateChar sep l₂ := by
  induction l₁ with
  | nil => exact absurd rfl h₁
  | cons p ps ih =>
    cases ps with
    | nil =>
      cases l₂ with
      | nil => exact absurd rfl h₂
      | cons q qs => simp [intercalateChar]
    | cons r rs =>
      have h3 := ih (by simp)
      calc intercalateChar sep ((p :: r :: rs) ++ l₂)
          = p ++ sep :: intercalateChar sep ((r :: rs) ++ l₂) := rfl
        _ = p ++ sep :: (intercalateChar sep (r :: rs) ++ sep :: intercalateChar sep l₂) := by
            rw [h3]
        _ = intercalateChar sep (p :: r :: rs) ++ sep :: intercalateChar sep l₂ := by
            simp [intercalateChar]

theorem intercalateChar_ne_nil (sep : Char) (l : List (List Char))
    (hne : l ≠ []) (hhead : ∀ p ∈ l, p ≠ []) :
    intercalateChar sep l ≠ [] := by
  cases l with
  | nil => exact absurd rfl hne
  | cons p ps =>
    cases ps with
    | nil => simpa [intercalateChar] using hhead p (by simp)
    | cons q qs =>
      have hp : p ≠ [] := hhead p (by simp)
      simp only [intercalateChar]
      intro h
      exact hp (List.append_eq_nil.mp h).1

theorem dropWhile_append_of_forall {α : Type} (p : α → Bool) (l₁ l₂ : List α)
    (h : ∀ a ∈ l₁, p a = true) :
    (l₁ ++ l₂).dropWhile p = l₂.dropWhile p := by
  induction l₁ with
  | nil => rfl
  | cons a as ih =>
    have ha : p a = true := h a (by simp)
    simp only [List.cons_append, List.dropWhile_cons, ha, if_true]
    exact ih (fun b hb => h b (List.mem_cons_of_mem a hb))

theorem takeWhile_append_of_forall {α : Type} (p : α → Bool) (l₁ l₂ : List α)
    (h : ∀ a ∈ l₁, p a = true) :
    (l₁ ++ l₂).takeWhile p = l₁ ++ l₂.takeWhile p := by
  induction l₁ with
  | nil => rfl
  | cons a as ih =>
    have ha : p a = true := h a (by simp)
    simp only [List.cons_append, List.takeWhile_cons, ha, if_true]
    rw [ih (fun b hb => h b (List.mem_cons_of_mem a hb))]

theorem string_data_append (a b : String) : (a ++ b).data = a.data ++ b.data := rfl

theorem string_eq_of_data {a b : String} (h : a.data = b.data) : a = b := by
  cases a
  cases b
  exact congrArg String.mk h

theorem getTempPath_ne (t s : String) : getTempPath t s ≠ t := by
  intro h
  have hd : (getTempPath t s).data = t.data := by rw [h]
  simp only [getTempPath, string_data_append] at hd
  have : t.data ++ (".tmp-" : String).data ++ s.data = t.data := hd
  have hlen := congrArg List.length this
  simp [List.length_append] at hlen

theorem dirnameChars_append_no_slash (t u : List Char) (h : '/' ∉ u) :
    dirnameChars (t ++ u) = dirnameChars t := by
  unfold dirnameChars
  rw [List.reverse_append,
    dropWhile_append_of_forall _ u.reverse t.reverse
      (by intro a ha; simp only [bne_iff_ne, ne_eq, decide_eq_true_eq]
          intro hc; exact h (hc ▸ (List.mem_reverse.mp ha)))]

theorem dirname_getTempPath (t s : String) (hs : '/' ∉ s.data) :
    dirname (getTempPath t s) = dirname t := by
  unfold dirname getTempPath
  congr 1
  rw [string_data_append, string_data_append, List.append_assoc]
  refine dirnameChars_append_no_slash t.data ((".tmp-" : String).data ++ s.data) ?_
  intro hmem
  rcases List.mem_append.mp hmem with h1 | h2
  · simp at h1
  · exact hs h2

/-- C1: `writeFileAtomic` (and `copyFileAtomic`) first ensure the target's
parent directory, then write (resp. copy) the content to a uniquely-named
temporary sibling path extending the target path in the same directory, and
only then rename the temporary onto the target; no operation in either trace
writes the destination directly, so after every prefix of the trace the
destination holds either its original value or the complete final content,
and after the full trace it holds exactly the final content. -/

theorem c1_atomic_write_discipline
    (targetPath sourcePath : String) (data : List Nat) (stamp : String)
    (hstamp : '/' ∉ stamp.data)
    (fs : String → Option (List Nat)) :
    (writeFileAtomicOps targetPath data stamp =
      [FsOp.mkdirp (dirname targetPath),
       FsOp.write (getTempPath targetPath stamp) data,
       FsOp.rename (getTempPath targetPath stamp) targetPath])
    ∧ (copyFileAtomicOps sourcePath targetPath stamp =
      [FsOp.mkdirp (dirname targetPath),
       FsOp.copy sourcePath (getTempPath targetPath stamp),
       FsOp.rename (getTempPath targetPath stamp) targetPath])
    ∧ getTempPath targetPath stamp ≠ targetPath
    ∧ (∃ suffix : String, suffix ≠ "" ∧ getTempPath targetPath stamp = targetPath ++ suffix)
    ∧ dirname (getTempPath targetPath stamp) = dirname targetPath
    ∧ (∀ stamp₂ : String, stamp ≠ stamp₂ →
        getTempPath targetPath stamp ≠ getTempPath targetPath stamp₂)
    ∧ (∀ d, FsOp.write targetPath d ∉ writeFileAtomicOps targetPath data stamp)
    ∧ (∀ s, FsOp.copy s targetPath ∉ copyFileAtomicOps sourcePath targetPath stamp)
    ∧ (∀ k, applyOps fs ((writeFileAtomicOps targetPath data stamp).take k) targetPath = fs targetPath
          ∨ applyOps fs ((writeFileAtomicOps targetPath data stamp).take k) targetPath = some data)
    ∧ applyOps fs (writeFileAtomicOps targetPath data stamp) targetPath = some data
    ∧ (∀ k, applyOps fs ((copyFileAtomicOps sourcePath targetPath stamp).take k) targetPath = fs targetPath
          ∨ applyOps fs ((copyFileAtomicOps sourcePath targetPath stamp).take k) targetPath = fs sourcePath)
    ∧ applyOps fs (copyFileAtomicOps sourcePath targetPath stamp) targetPath = fs sourcePath := by
  have htemp : getTempPath targetPath stamp ≠ targetPath := getTempPath_ne targetPath stamp
  have htarget : targetPath ≠ getTempPath targetPath stamp := Ne.symm htemp
  refine ⟨rfl, rfl, htemp, ?_, dirname_getTempPath targetPath stamp hstamp, ?_, ?_, ?_, ?_, ?_, ?_, ?_⟩
  · refine ⟨".tmp-" ++ stamp, ?_, ?_⟩
    · intro h
      have := congrArg (fun s => s.data.length) h
      simp [string_data_append, List.length_append] at this
    · apply string_eq_of_data
      simp [getTempPath, string_data_append, List.append_assoc]
  · intro stamp₂ hne heq
    apply hne
    have := congrArg String.data heq
    simp only [getTempPath, string_data_append] at this
    exact string_eq_of_data (List.append_cancel_left this)
  · intro d
    simp only [writeFileAtomicOps, List.mem_cons, List.not_mem_nil, or_false]
    push_neg
    refine ⟨by simp, ?_, by simp⟩
    intro h
    exact htarget (congrArg (fun op => match op with
      | FsOp.write p _ => p
      | _ => targetPath) h)
  · intro s
    simp only [copyFileAtomicOps, List.mem_cons, List.not_mem_nil, or_false]
    push_neg
    refine ⟨by simp, ?_, by simp⟩
    intro h
    exact htarget (congrArg (fun op => match op with
      | FsOp.copy _ p => p
      | _ => targetPath) h)
  · intro k
    match k with
    | 0 => exact Or.inl rfl
    | 1 => exact Or.inl rfl
    | 2 =>
      left
      simp [writeFileAtomicOps, applyOps, applyOp, htarget]
    | (n + 3) =>
      right
      simp [writeFileAtomicOps, applyOps, applyOp, htarget, List.take_succ_cons]
  · simp [writeFileAtomicOps, applyOps, applyOp, htarget]
  · intro k
    match k with
    | 0 => exact Or.inl rfl
    | 1 => exact Or.inl rfl
    | 2 =>
      left
      simp [copyFileAtomicOps, applyOps, applyOp, htarget]
    | (n + 3) =>
      right
      simp [copyFileAtomicOps, applyOps, applyOp, htarget, List.take_succ_cons]
  · simp [copyFileAtomicOps, applyOps, applyOp, htarget]

/-- Closed witness for `c1_atomic_write_discipline` at a concrete target,
stamp and filesystem. -/

theorem c1_atomic_write_discipline_witness :
    applyOps (fun _ => none)
      (writeFileAtomicOps "/out/a-squoosh.webp" [7, 7] "11-22-ab") "/out/a-squoosh.webp"
      = some [7, 7] :=
  (c1_atomic_write_discipline "/out/a-squoosh.webp" "/in/a.png" [7, 7] "11-22-ab"
    (by decide) (fun _ => none)).2.2.2.2.2.2.2.2.2.1

/-! ### Supporting lemmas about the path embedding -/

theorem bne_slash_of_forall {l : List Char} (h : '/' ∉ l) :
    ∀ a ∈ l, (a != '/') = true := by
  intro a ha
  simp only [bne_iff_ne, ne_eq]
  intro hc
  exact h (hc ▸ ha)

theorem mem_dropWhile_imp {α : Type} (p : α → Bool) (l : List α) (a : α)
    (h : a ∈ l.dropWhile p) : a ∈ l := by
  induction l with
  | nil => exact absurd h (by simp)
  | cons b bs ih =>
    rw [List.dropWhile_cons] at h
    by_cases hp : p b = true
    · simp only [hp, if_true] at h
      exact List.mem_cons_of_mem b (ih h)
    · simp only [hp, if_false] at h
      exact h

theorem absSegments_absPath (comps : List (List Char))
    (h : ∀ c ∈ comps, c ≠ [] ∧ '/' ∉ c) :
    absSegments (absPath comps) = comps := by
  cases comps with
  | nil => rfl
  | cons c cs =>
    unfold absSegments absPath
    rw [splitOnChar_cons_sep,
      splitOnChar_intercalateChar '/' (c :: cs) (by simp) (fun p hp => (h p hp).2)]
    rw [List.filter_cons]
    simp only [bne_self_eq_false, if_false, Bool.false_eq_true]
    exact List.filter_eq_self.mpr (fun p hp => by
      simp only [bne_iff_ne, ne_eq]
      exact (h p hp).1)

theorem relComps_append (cs ts : List (List Char)) : relComps cs (cs ++ ts) = ts := by
  induction cs with
  | nil => rfl
  | cons f fs ih =>
    rw [List.cons_append]
    show relComps (f :: fs) (f :: (fs ++ ts)) = ts
    simp only [relComps, eq_self_iff_true, if_true]
    exact ih

theorem pathRelativeChars_eq (rootC fileC : List (List Char))
    (hroot : ∀ c ∈ rootC, c ≠ [] ∧ '/' ∉ c)
    (hfile : ∀ c ∈ fileC, c ≠ [] ∧ '/' ∉ c) :
    pathRelativeChars (absPath rootC) (absPath (rootC ++ fileC)) =
      intercalateChar '/' fileC := by
  unfold pathRelativeChars
  rw [absSegments_absPath rootC hroot,
    absSegments_absPath (rootC ++ fileC) (by
      intro c hc
      rcases List.mem_append.mp hc with h1 | h2
      · exact hroot c h1
      · exact hfile c h2),
    relComps_append]

theorem basenameChars_no_slash (b : List Char) (h : '/' ∉ b) :
    basenameChars b = b := by
  unfold basenameChars
  have h2 := takeWhile_append_of_forall (fun c => c != '/') b.reverse []
    (bne_slash_of_forall (by simp only [List.mem_reverse]; exact h))
  simp only [List.append_nil, List.takeWhile_nil] at h2
  rw [h2, List.reverse_reverse]

theorem basenameChars_append_slash (t b : List Char) (h : '/' ∉ b) :
    basenameChars (t ++ '/' :: b) = b := by
  unfold basenameChars
  rw [List.reverse_append, List.reverse_cons, List.append_assoc,
    List.singleton_append,
    takeWhile_append_of_forall _ b.reverse ('/' :: t.reverse)
      (bne_slash_of_forall (by simpa using h))]
  simp [List.takeWhile_cons]

theorem parseNameChars_congr {p q : List Char}
    (h : basenameChars p = basenameChars q) : parseNameChars p = parseNameChars q := by
  unfold parseNameChars
  rw [h]

theorem parseNameChars_absPath (cs : List (List Char)) (b : List Char)
    (hb : '/' ∉ b) :
    parseNameChars (absPath (cs ++ [b])) = parseNameChars b := by
  apply parseNameChars_congr
  rw [basenameChars_no_slash b hb]
  cases cs with
  | nil =>
    show basenameChars ([] ++ '/' :: b) = b
    exact basenameChars_append_slash [] b hb
  | cons c cs2 =>
    unfold absPath
    rw [intercalateChar_append '/' (c :: cs2) [b] (by simp) (by simp),
      show intercalateChar '/' [b] = b from rfl,
      show ('/' : Char) :: (intercalateChar '/' (c :: cs2) ++ '/' :: b) =
        ('/' :: intercalateChar '/' (c :: cs2)) ++ '/' :: b from rfl]
    exact basenameChars_append_slash _ b hb

theorem parseNameChars_eq (p : List Char) :
    parseNameChars p =
      match (basenameChars p).reverse.dropWhile (fun c => c != '.') with
      | [] => basenameChars p
      | _ :: rest => if rest = [] then basenameChars p else rest.reverse := rfl

theorem parseNameChars_no_slash (b : List Char) (h : '/' ∉ b) :
    '/' ∉ parseNameChars b := by
  rw [parseNameChars_eq, basenameChars_no_slash b h]
  cases hd : b.reverse.dropWhile (fun c => c != '.') with
  | nil => exact h
  | cons x rest =>
    show '/' ∉ (if rest = [] then b else rest.reverse)
    by_cases hr : rest = []
    · rw [if_pos hr]
      exact h
    · rw [if_neg hr]
      intro hmem
      apply h
      have hmem2 : '/' ∈ x :: rest := List.mem_cons_of_mem x (List.mem_reverse.mp hmem)
      rw [← hd] at hmem2
      exact List.mem_reverse.mp (mem_dropWhile_imp _ _ _ hmem2)

theorem dirnameChars_no_slash (b : List Char) (h : '/' ∉ b) :
    dirnameChars b = ['.'] := by
  unfold dirnameChars
  rw [List.dropWhile_eq_nil_iff.mpr (bne_slash_of_forall (by simpa using h))]

theorem dirnameChars_intercalate (ds : List (List Char)) (b : List Char)
    (hds : ∀ c ∈ ds, c ≠ [] ∧ '/' ∉ c) (hb : '/' ∉ b) (hne : ds ≠ []) :
    dirnameChars (intercalateChar '/' (ds ++ [b])) = intercalateChar '/' ds := by
  have hX : intercalateChar '/' ds ≠ [] :=
    intercalateChar_ne_nil '/' ds hne (fun p hp => (hds p hp).1)
  unfold dirnameChars
  rw [intercalateChar_append '/' ds [b] hne (by simp),
    show intercalateChar '/' [b] = b from rfl,
    List.reverse_append, List.reverse_cons, List.append_assoc, List.singleton_append,
    dropWhile_append_of_forall _ b.reverse _ (bne_slash_of_forall (by simpa using hb))]
  rw [List.dropWhile_cons]
  simp only [bne_self_eq_false, Bool.false_eq_true, if_false]
  cases hrev : (intercalateChar '/' ds).reverse with
  | nil => exact absurd (by simpa using hrev) hX
  | cons y ys =>
    simp only [← hrev, List.reverse_reverse]

theorem normSegs_no_dotdot (absolute : Bool) (segs : List (List Char))
    (h : ∀ s ∈ segs, s ≠ ['.', '.']) (acc : List (List Char)) :
    normSegs absolute acc segs =
      acc.reverse ++ segs.filter (fun s => s != [] && s != ['.']) := by
  induction segs generalizing acc with
  | nil => simp [normSegs]
  | cons s ss ih =>
    have hss : ∀ t ∈ ss, t ≠ ['.', '.'] := fun t ht => h t (List.mem_cons_of_mem s ht)
    by_cases h1 : s = [] ∨ s = ['.']
    · have hstep : normSegs absolute acc (s :: ss) = normSegs absolute acc ss := by
        simp only [normSegs, if_pos h1]
      have hfil : (s :: ss).filter (fun t => t != [] && t != ['.']) =
          ss.filter (fun t => t != [] && t != ['.']) := by
        rcases h1 with h1 | h1 <;> simp [List.filter_cons, h1]
      rw [hstep, ih hss, hfil]
    · have hs2 : s ≠ ['.', '.'] := h s (List.mem_cons_self s ss)
      have hstep : normSegs absolute acc (s :: ss) = normSegs absolute (s :: acc) ss := by
        simp only [normSegs, if_neg h1, if_neg hs2]
      push_neg at h1
      have hfil : (s :: ss).filter (fun t => t != [] && t != ['.']) =
          s :: ss.filter (fun t => t != [] && t != ['.']) := by
        simp [List.filter_cons, h1.1, h1.2]
      rw [hstep, ih hss, hfil, List.reverse_cons, List.append_assoc, List.singleton_append]

theorem pathJoinChars_abs (outC ds' : List (List Char)) (fileName : List Char)
    (hout : outC ≠ []) (houtg : ∀ c ∈ outC, goodComp c)
    (hds' : ds' ≠ []) (hdsg : ∀ c ∈ ds', c ≠ [] ∧ '/' ∉ c ∧ c ≠ ['.', '.'])
    (hfn1 : fileName ≠ []) (hfn2 : '/' ∉ fileName)
    (hfn3 : fileName ≠ ['.']) (hfn4 : fileName ≠ ['.', '.']) :
    pathJoinChars [absPath outC, intercalateChar '/' ds', fileName] =
      absPath (outC ++ ds'.filter (fun s => s != [] && s != ['.']) ++ [fileName]) := by
  have hB : intercalateChar '/' ds' ≠ [] :=
    intercalateChar_ne_nil '/' ds' hds' (fun p hp => (hdsg p hp).1)
  have hparts : ([absPath outC, intercalateChar '/' ds', fileName].filter
      (fun p => p != [])) = [absPath outC, intercalateChar '/' ds', fileName] := by
    refine List.filter_eq_self.mpr ?_
    intro p hp
    simp only [List.mem_cons, List.not_mem_nil, or_false] at hp
    rcases hp with h | h | h <;> subst h <;> simp [bne_iff_ne, absPath, hB, hfn1]
  have hjoined : intercalateChar '/' [absPath outC, intercalateChar '/' ds', fileName] =
      '/' :: intercalateChar '/' (outC ++ ds' ++ [fileName]) := by
    show ('/' :: intercalateChar '/' outC) ++
        '/' :: (intercalateChar '/' ds' ++ '/' :: fileName) =
      '/' :: intercalateChar '/' (outC ++ ds' ++ [fileName])
    rw [List.cons_append]
    congr 1
    rw [List.append_assoc, intercalateChar_append '/' outC (ds' ++ [fileName]) hout (by simp),
      intercalateChar_append '/' ds' [fileName] hds' (by simp)]
    rfl
  have hslashfree : ∀ p ∈ outC ++ ds' ++ [fileName], '/' ∉ p := by
    intro p hp
    rcases List.mem_append.mp hp with hp | hp
    · rcases List.mem_append.mp hp with hp | hp
      · exact (houtg p hp).2.1
      · exact (hdsg p hp).2.1
    · simp only [List.mem_singleton] at hp
      subst hp; exact hfn2
  have hsplit : splitOnChar '/' ('/' :: intercalateChar '/' (outC ++ ds' ++ [fileName])) =
      [] :: (outC ++ ds' ++ [fileName]) := by
    rw [splitOnChar_cons_sep,
      splitOnChar_intercalateChar '/' (outC ++ ds' ++ [fileName]) (by simp) hslashfree]
  have hnodotdot : ∀ s ∈ ([] : List Char) :: (outC ++ ds' ++ [fileName]), s ≠ ['.', '.'] := by
    intro s hs
    rcases List.mem_cons.mp hs with hs | hs
    · subst hs; simp
    · rcases List.mem_append.mp hs with hs | hs
      · rcases List.mem_append.mp hs with hs | hs
        · exact (houtg s hs).2.2.2
        · exact (hdsg s hs).2.2
      · simp only [List.mem_singleton] at hs
        subst hs; exact hfn4
  have hnorm : normSegs true [] (([] : List Char) :: (outC ++ ds' ++ [fileName])) =
      outC ++ ds'.filter (fun s => s != [] && s != ['.']) ++ [fileName] := by
    rw [normSegs_no_dotdot true _ hnodotdot []]
    rw [List.filter_cons]
    simp only [bne_self_eq_false, Bool.false_and, if_false, Bool.false_eq_true,
      List.reverse_nil, List.nil_append]
    rw [List.filter_append, List.filter_append]
    congr 1
    · congr 1
      refine List.filter_eq_self.mpr ?_
      intro c hc
      simp only [Bool.and_eq_true, bne_iff_ne, ne_eq]
      exact ⟨(houtg c hc).1, (houtg c hc).2.2.1⟩
    · refine List.filter_eq_self.mpr ?_
      intro c hc
      simp only [List.mem_singleton] at hc
      subst hc
      simp only [Bool.and_eq_true, bne_iff_ne, ne_eq]
      exact ⟨hfn1, hfn3⟩
  have hcore : intercalateChar '/'
      (outC ++ ds'.filter (fun s => s != [] && s != ['.']) ++ [fileName]) ≠ [] := by
    refine intercalateChar_ne_nil '/' _ (by simp) ?_
    intro p hp
    rcases List.mem_append.mp hp with hp | hp
    · rcases List.mem_append.mp hp with hp | hp
      · exact (houtg p hp).1
      · have := List.of_mem_filter hp
        simp only [Bool.and_eq_true, bne_iff_ne, ne_eq] at this
        exact this.1
    · simp only [List.mem_singleton] at hp
      subst hp; exact hfn1
  unfold pathJoinChars
  rw [hparts, hjoined]
  rw [if_neg (by simp)]
  have habs : ((('/' : Char) :: intercalateChar '/' (outC ++ ds' ++ [fileName])).head? ==
      some '/') = true := by rfl
  rw [habs]
  simp only [if_true]
  rw [hsplit, hnorm]
  rw [if_neg hcore]
  rfl

/-- Full computation of `buildOutputPath` in directory mode on well-formed
absolute segment paths. -/

theorem buildOutputPathChars_dir_eq
    (rootC outC ds : List (List Char)) (b ext : List Char)
    (hroot : ∀ c ∈ rootC, goodComp c)
    (hout : outC ≠ []) (houtg : ∀ c ∈ outC, goodComp c)
    (hds : ∀ c ∈ ds, goodComp c) (hb : goodComp b) (hext : '/' ∉ ext) :
    buildOutputPathChars (absPath (rootC ++ (ds ++ [b]))) (absPath rootC) (absPath outC) true ext
      = absPath (outC ++ ds ++ [parseNameChars b ++ "-squoosh.".data ++ ext]) := by
  have hfileC : ∀ c ∈ ds ++ [b], c ≠ [] ∧ '/' ∉ c := by
    intro c hc
    rcases List.mem_append.mp hc with hc | hc
    · exact ⟨(hds c hc).1, (hds c hc).2.1⟩
    · simp only [List.mem_singleton] at hc
      subst hc; exact ⟨hb.1, hb.2.1⟩
  have hrootw : ∀ c ∈ rootC, c ≠ [] ∧ '/' ∉ c := fun c hc => ⟨(hroot c hc).1, (hroot c hc).2.1⟩
  have hname : parseNameChars (absPath (rootC ++ (ds ++ [b]))) = parseNameChars b := by
    rw [show rootC ++ (ds ++ [b]) = (rootC ++ ds) ++ [b] by rw [List.append_assoc]]
    exact parseNameChars_absPath (rootC ++ ds) b hb.2.1
  have hrel : pathRelativeChars (absPath rootC) (absPath (rootC ++ (ds ++ [b]))) =
      intercalateChar '/' (ds ++ [b]) :=
    pathRelativeChars_eq rootC (ds ++ [b]) hrootw hfileC
  -- facts about the generated file name
  have hm : ("-squoosh." : String).data = ['-', 's', 'q', 'u', 'o', 'o', 's', 'h', '.'] := rfl
  have hnslash : '/' ∉ parseNameChars b := parseNameChars_no_slash b hb.2.1
  have hfn2 : '/' ∉ parseNameChars b ++ "-squoosh.".data ++ ext := by
    intro hmem
    rcases List.mem_append.mp hmem with hmem | hmem
    · rcases List.mem_append.mp hmem with hmem | hmem
      · exact hnslash hmem
      · rw [hm] at hmem; simp at hmem
    · exact hext hmem
  have hfnlen : (parseNameChars b ++ "-squoosh.".data ++ ext).length =
      (parseNameChars b).length + 9 + ext.length := by
    rw [List.length_append, List.length_append, hm]
    rfl
  have hfn1 : parseNameChars b ++ "-squoosh.".data ++ ext ≠ [] := by
    intro hnil
    have := congrArg List.length hnil
    rw [hfnlen] at this
    simp at this
  have hfn3 : parseNameChars b ++ "-squoosh.".data ++ ext ≠ ['.'] := by
    intro hdot
    have := congrArg List.length hdot
    rw [hfnlen] at this
    simp at this
    omega
  have hfn4 : parseNameChars b ++ "-squoosh.".data ++ ext ≠ ['.', '.'] := by
    intro hdot
    have := congrArg List.length hdot
    rw [hfnlen] at this
    simp at this
    omega
  unfold buildOutputPathChars
  simp only [Bool.not_true, Bool.false_eq_true, if_false]
  rw [hname, hrel]
  by_cases hdsnil : ds = []
  · subst hdsnil
    rw [show intercalateChar '/' ([] ++ [b]) = b from rfl,
      dirnameChars_no_slash b hb.2.1]
    have := pathJoinChars_abs outC [['.']] (parseNameChars b ++ "-squoosh.".data ++ ext)
      hout houtg (by simp) (by intro c hc; simp only [List.mem_singleton] at hc; subst hc; simp)
      hfn1 hfn2 hfn3 hfn4
    rw [show intercalateChar '/' [['.']] = ['.'] from rfl] at this
    rw [this]
    simp [List.filter]
  · rw [dirnameChars_intercalate ds b
        (fun c hc => ⟨(hds c hc).1, (hds c hc).2.1⟩) hb.2.1 hdsnil]
    have hjoin := pathJoinChars_abs outC ds (parseNameChars b ++ "-squoosh.".data ++ ext)
      hout houtg hdsnil
      (fun c hc => ⟨(hds c hc).1, (hds c hc).2.1, (hds c hc).2.2.2⟩)
      hfn1 hfn2 hfn3 hfn4
    have hfil : ds.filter (fun s => s != [] && s != ['.']) = ds := by
      refine List.filter_eq_self.mpr ?_
      intro c hc
      simp only [Bool.and_eq_true, bne_iff_ne, ne_eq]
      exact ⟨(hds c hc).1, (hds c hc).2.2.1⟩
    rw [hjoin, hfil]

/-- C2 (counterexample): the claim "buildOutputPath with isDirectory true maps
any two distinct input paths of one batch to distinct output paths" is false:
two distinct inputs that differ only in their original extension collide onto
the same output path, because the extension is stripped before the fixed
output extension is appended. -/

theorem c2_counterexample :
    ("/in/a.png" : String) ≠ "/in/a.jpg"
    ∧ buildOutputPath "/in/a.png" "/in" "/out" true "webp"
      = buildOutputPath "/in/a.jpg" "/in" "/out" true "webp" := by
  constructor
  · decide
  · rfl

/-- C2 (amended): `buildOutputPath` with directory structure preserved is
injective on input files with distinct extension-stripped stems: if two
well-formed input files under the same root differ in their relative
directory or in their basename-without-extension, their output paths differ.
(Inputs differing only in their original extension still collide.) -/

theorem c2_amended_distinct_stems_distinct_outputs
    (rootC outC ds₁ ds₂ : List (List Char)) (b₁ b₂ ext : List Char)
    (hroot : ∀ c ∈ rootC, goodComp c)
    (hout : outC ≠ []) (houtg : ∀ c ∈ outC, goodComp c)
    (hds₁ : ∀ c ∈ ds₁, goodComp c) (hb₁ : goodComp b₁)
    (hds₂ : ∀ c ∈ ds₂, goodComp c) (hb₂ : goodComp b₂)
    (hext : '/' ∉ ext)
    (hstem : ds₁ ++ [parseNameChars b₁] ≠ ds₂ ++ [parseNameChars b₂]) :
    buildOutputPathChars (absPath (rootC ++ (ds₁ ++ [b₁])))
      (absPath rootC) (absPath outC) true ext ≠
    buildOutputPathChars (absPath (rootC ++ (ds₂ ++ [b₂])))
      (absPath rootC) (absPath outC) true ext := by
  rw [buildOutputPathChars_dir_eq rootC outC ds₁ b₁ ext hroot hout houtg hds₁ hb₁ hext,
    buildOutputPathChars_dir_eq rootC outC ds₂ b₂ ext hroot hout houtg hds₂ hb₂ hext]
  intro heq
  apply hstem
  have hm : ("-squoosh." : String).data = ['-', 's', 'q', 'u', 'o', 'o', 's', 'h', '.'] := rfl
  have hfnslash : ∀ b : List Char, '/' ∉ b →
      '/' ∉ parseNameChars b ++ "-squoosh.".data ++ ext := by
    intro b hb hmem
    rcases List.mem_append.mp hmem with hmem | hmem
    · rcases List.mem_append.mp hmem with hmem | hmem
      · exact parseNameChars_no_slash b hb hmem
      · rw [hm] at hmem; simp at hmem
    · exact hext hmem
  have hall : ∀ (ds : List (List Char)) (b : List Char),
      (∀ c ∈ ds, goodComp c) → goodComp b →
      ∀ p ∈ outC ++ ds ++ [parseNameChars b ++ "-squoosh.".data ++ ext], '/' ∉ p := by
    intro ds b hds hb p hp
    rcases List.mem_append.mp hp with hp | hp
    · rcases List.mem_append.mp hp with hp | hp
      · exact (houtg p hp).2.1
      · exact (hds p hp).2.1
    · simp only [List.mem_singleton] at hp
      subst hp
      exact hfnslash b hb.2.1
  have h1 : intercalateChar '/'
        (outC ++ ds₁ ++ [parseNameChars b₁ ++ "-squoosh.".data ++ ext]) =
      intercalateChar '/'
        (outC ++ ds₂ ++ [parseNameChars b₂ ++ "-squoosh.".data ++ ext]) := by
    have := congrArg List.tail heq
    simpa [absPath] using this
  have hsegs : outC ++ ds₁ ++ [parseNameChars b₁ ++ "-squoosh.".data ++ ext] =
      outC ++ ds₂ ++ [parseNameChars b₂ ++ "-squoosh.".data ++ ext] := by
    have h2 := congrArg (splitOnChar '/') h1
    rwa [splitOnChar_intercalateChar '/' _ (by simp) (hall ds₁ b₁ hds₁ hb₁),
      splitOnChar_intercalateChar '/' _ (by simp) (hall ds₂ b₂ hds₂ hb₂)] at h2
  have hrev := congrArg List.reverse hsegs
  simp only [List.reverse_append, List.reverse_singleton, List.singleton_append,
    List.cons.injEq] at hrev
  have hfn : parseNameChars b₁ ++ "-squoosh.".data ++ ext =
      parseNameChars b₂ ++ "-squoosh.".data ++ ext := hrev.1
  have hds : ds₁ = ds₂ := by
    have h3 := List.append_cancel_right hrev.2
    rwa [List.reverse_inj] at h3
  have hname : parseNameChars b₁ = parseNameChars b₂ :=
    List.append_cancel_right (List.append_cancel_right hfn)
  rw [hds, hname]

/-- Closed witness for `c2_amended_distinct_stems_distinct_outputs`:
`/in/a.png` and `/in/s/a.png` have distinct stems and get distinct outputs. -/

theorem c2_amended_witness :
    buildOutputPathChars (absPath ([['i', 'n']] ++ ([] ++ [['a', '.', 'p', 'n', 'g']])))
      (absPath [['i', 'n']]) (absPath [['o', 'u', 't']]) true ['w', 'e', 'b', 'p'] ≠
    buildOutputPathChars (absPath ([['i', 'n']] ++ ([['s']] ++ [['a', '.', 'p', 'n', 'g']])))
      (absPath [['i', 'n']]) (absPath [['o', 'u', 't']]) true ['w', 'e', 'b', 'p'] :=
  c2_amended_distinct_stems_distinct_outputs [['i', 'n']] [['o', 'u', 't']] [] [['s']]
    ['a', '.', 'p', 'n', 'g'] ['a', '.', 'p', 'n', 'g'] ['w', 'e', 'b', 'p']
    (by decide) (by decide) (by decide) (by decide) (by decide) (by decide) (by decide)
    (by decide) (by decide)

/-! #### Quality-mapper lemmas and claims C3 / C10 -/

theorem jsRound_eq (x : ℚ) (n : ℤ) (h₁ : (n : ℚ) ≤ x + 1 / 2) (h₂ : x + 1 / 2 < (n : ℚ) + 1) :
    jsRound x = n := by
  unfold jsRound
  rw [Int.floor_eq_iff]
  exact ⟨h₁, by exact_mod_cast h₂⟩

theorem avifCqCurve_antitone {a b : ℚ} (hab : a ≤ b) : avifCqCurve b ≤ avifCqCurve a := by
  unfold avifCqCurve
  split_ifs <;> linarith

theorem mapQualityToAvifCq_antitone {a b : ℚ} (hab : a ≤ b) :
    mapQualityToAvifCq b ≤ mapQualityToAvifCq a := by
  show min 63 (max 0 (jsRound (avifCqCurve (min 100 (max 1 b))))) ≤
    min 63 (max 0 (jsRound (avifCqCurve (min 100 (max 1 a)))))
  have hq : min 100 (max 1 a) ≤ min 100 (max 1 b) :=
    min_le_min le_rfl (max_le_max le_rfl hab)
  have hc := avifCqCurve_antitone hq
  have hr : jsRound (avifCqCurve (min 100 (max 1 b))) ≤
      jsRound (avifCqCurve (min 100 (max 1 a))) := by
    unfold jsRound
    exact Int.floor_le_floor (by linarith)
  exact min_le_min le_rfl (max_le_max le_rfl hr)

theorem clamp_idem (x : ℚ) : min 100 (max 1 (min 100 (max 1 x))) = min 100 (max 1 x) := by
  rcases le_total x 1 with h | h
  · rw [max_eq_left h]
    norm_num
  · rcases le_total 100 x with h2 | h2
    · rw [max_eq_right h, min_eq_left h2]
      norm_num
    · rw [max_eq_right h, min_eq_right h2, max_eq_right h, min_eq_right h2]

theorem avifCqCurve_at_one : avifCqCurve 1 = 60 := by
  unfold avifCqCurve
  rw [if_neg (by norm_num), if_neg (by norm_num), if_neg (by norm_num)]
  norm_num

theorem avifCqCurve_at_hundred : avifCqCurve 100 = 10 := by
  unfold avifCqCurve
  rw [if_pos (by norm_num)]
  norm_num

/-- C3: over quality inputs in [1,100], `mapQualityToAvifCq` is monotonically
non-increasing, always lands in the native cqLevel range [0,63], consists of
rounding and clamping a piecewise-linear curve whose pieces span the
breakpoints 100, 75, 50, 25, 1, and at those breakpoints evaluates to
10, 30, 40, 50, 60. -/

theorem c3_avif_quality_mapper :
    (∀ q₁ q₂ : ℚ, 1 ≤ q₁ → q₁ ≤ q₂ → q₂ ≤ 100 →
       mapQualityToAvifCq q₂ ≤ mapQualityToAvifCq q₁)
    ∧ (∀ q : ℚ, 0 ≤ mapQualityToAvifCq q ∧ mapQualityToAvifCq q ≤ 63)
    ∧ (∀ q : ℚ, mapQualityToAvifCq q =
        min 63 (max 0 (jsRound (avifCqCurve (min 100 (max 1 q))))))
    ∧ (∀ q : ℚ, 75 ≤ q → avifCqCurve q = 30 + (10 - 30) * ((q - 75) / 25))
    ∧ (∀ q : ℚ, 50 ≤ q → q < 75 → avifCqCurve q = 40 + (30 - 40) * ((q - 50) / 25))
    ∧ (∀ q : ℚ, 25 ≤ q → q < 50 → avifCqCurve q = 50 + (40 - 50) * ((q - 25) / 25))
    ∧ (∀ q : ℚ, q < 25 → avifCqCurve q = 60 + (50 - 60) * ((q - 1) / 24))
    ∧ mapQualityToAvifCq 100 = 10 ∧ mapQualityToAvifCq 75 = 30
    ∧ mapQualityToAvifCq 50 = 40 ∧ mapQualityToAvifCq 25 = 50
    ∧ mapQualityToAvifCq 1 = 60 := by
  refine ⟨fun q₁ q₂ _ h12 _ => mapQualityToAvifCq_antitone h12,
    ?_, fun q => rfl, ?_, ?_, ?_, ?_, ?_, ?_, ?_, ?_, ?_⟩
  · intro q
    constructor
    · exact le_min (by norm_num) (le_max_left 0 _)
    · show min 63 (max 0 (jsRound (avifCqCurve (min 100 (max 1 q))))) ≤ 63
      exact min_le_left 63 _
  · intro q h
    unfold avifCqCurve
    rw [if_pos h]
  · intro q h1 h2
    unfold avifCqCurve
    rw [if_neg (not_le.mpr h2), if_pos h1]
  · intro q h1 h2
    unfold avifCqCurve
    rw [if_neg (by linarith), if_neg (not_le.mpr h2), if_pos h1]
  · intro q h
    unfold avifCqCurve
    rw [if_neg (by linarith), if_neg (by linarith), if_neg (not_le.mpr h)]
  · show min 63 (max 0 (jsRound (avifCqCurve (min 100 (max 1 (100 : ℚ)))))) = 10
    rw [show min (100 : ℚ) (max 1 100) = 100 by norm_num, avifCqCurve_at_hundred,
      jsRound_eq 10 10 (by norm_num) (by norm_num)]
    norm_num
  · show min 63 (max 0 (jsRound (avifCqCurve (min 100 (max 1 (75 : ℚ)))))) = 30
    rw [show min (100 : ℚ) (max 1 75) = 75 by norm_num]
    rw [show avifCqCurve 75 = 30 by unfold avifCqCurve; rw [if_pos (by norm_num)]; norm_num]
    rw [jsRound_eq 30 30 (by norm_num) (by norm_num)]
    norm_num
  · show min 63 (max 0 (jsRound (avifCqCurve (min 100 (max 1 (50 : ℚ)))))) = 40
    rw [show min (100 : ℚ) (max 1 50) = 50 by norm_num]
    rw [show avifCqCurve 50 = 40 by
      unfold avifCqCurve; rw [if_neg (by norm_num), if_pos (by norm_num)]; norm_num]
    rw [jsRound_eq 40 40 (by norm_num) (by norm_num)]
    norm_num
  · show min 63 (max 0 (jsRound (avifCqCurve (min 100 (max 1 (25 : ℚ)))))) = 50
    rw [show min (100 : ℚ) (max 1 25) = 25 by norm_num]
    rw [show avifCqCurve 25 = 50 by
      unfold avifCqCurve
      rw [if_neg (by norm_num), if_neg (by norm_num), if_pos (by norm_num)]; norm_num]
    rw [jsRound_eq 50 50 (by norm_num) (by norm_num)]
    norm_num
  · show min 63 (max 0 (jsRound (avifCqCurve (min 100 (max 1 (1 : ℚ)))))) = 60
    rw [show min (100 : ℚ) (max 1 1) = 1 by norm_num, avifCqCurve_at_one,
      jsRound_eq 60 60 (by norm_num) (by norm_num)]
    norm_num

/-- Closed witness for `c3_avif_quality_mapper` at concrete qualities 50 and
75. -/

theorem c3_avif_quality_mapper_witness :
    mapQualityToAvifCq 75 ≤ mapQualityToAvifCq 50 :=
  c3_avif_quality_mapper.1 50 75 (by norm_num) (by norm_num) (by norm_num)

/-- C10: `mapQualityToAvifCq` is total over all integer inputs: every integer
maps like its clamp into [1,100]; inputs at most 1 give cq 60 and inputs at
least 100 give cq 10. -/

theorem c10_mapQuality_total_clamped (n : ℤ) :
    mapQualityToAvifCq (n : ℚ) = mapQualityToAvifCq ((min 100 (max 1 n) : ℤ) : ℚ)
    ∧ (n ≤ 1 → mapQualityToAvifCq (n : ℚ) = 60)
    ∧ (100 ≤ n → mapQualityToAvifCq (n : ℚ) = 10) := by
  refine ⟨?_, ?_, ?_⟩
  · show min 63 (max 0 (jsRound (avifCqCurve (min 100 (max 1 (n : ℚ)))))) =
      min 63 (max 0 (jsRound (avifCqCurve (min 100 (max 1 (((min 100 (max 1 n) : ℤ) : ℚ)))))))
    rw [show (((min 100 (max 1 n) : ℤ) : ℚ)) = min 100 (max 1 (n : ℚ)) by push_cast; ring_nf]
    rw [clamp_idem]
  · intro h
    have hq : (n : ℚ) ≤ 1 := by exact_mod_cast h
    show min 63 (max 0 (jsRound (avifCqCurve (min 100 (max 1 (n : ℚ)))))) = 60
    rw [max_eq_left hq, show min (100 : ℚ) 1 = 1 by norm_num, avifCqCurve_at_one,
      jsRound_eq 60 60 (by norm_num) (by norm_num)]
    norm_num
  · intro h
    have hq : (100 : ℚ) ≤ (n : ℚ) := by exact_mod_cast h
    show min 63 (max 0 (jsRound (avifCqCurve (min 100 (max 1 (n : ℚ)))))) = 10
    rw [show max (1 : ℚ) (n : ℚ) = (n : ℚ) from max_eq_right (by linarith),
      min_eq_left hq, avifCqCurve_at_hundred,
      jsRound_eq 10 10 (by norm_num) (by norm_num)]
    norm_num

/-- Closed witness for `c10_mapQuality_total_clamped` at the out-of-range
integer inputs -5 and 200. -/

theorem c10_mapQuality_total_clamped_witness :
    mapQualityToAvifCq ((-5 : ℤ) : ℚ) = 60 ∧ mapQualityToAvifCq ((200 : ℤ) : ℚ) = 10 :=
  ⟨(c10_mapQuality_total_clamped (-5)).2.1 (by norm_num),
   (c10_mapQuality_total_clamped 200).2.2 (by norm_num)⟩

/-- C5: for every capability set the mozjpeg catalog entry resolves to the
advanced ('squoosh') strategy when the mozjpeg capability is usable and to
the 'sharp' fallback otherwise — never 'unsupported' — and its label
visibly marks the fallback case. -/

theorem c5_mozjpeg_entry (support : SquooshSupport) :
    ∃ e : EncoderOption,
      (getMenuOptions support).find? (fun o => o.id == EncoderId.mozjpeg) = some e
      ∧ e.encoderType =
          (if support.mozjpeg then EncoderType.squoosh else EncoderType.sharp)
      ∧ e.encoderType ≠ EncoderType.unsupported
      ∧ e.label =
          (if support.mozjpeg then "MozJPEG" else "JPEG fallback (not true MozJPEG)")
      ∧ ("MozJPEG" : String) ≠ "JPEG fallback (not true MozJPEG)"
      ∧ e.isFallback = some (!support.mozjpeg) := by
  refine ⟨_, rfl, rfl, ?_, rfl, by decide, rfl⟩
  cases hm : support.mozjpeg <;> simp [hm]

/-- C6 (counterexample): the claim that no exception escapes
`detectSquooshSupport` is false: when the module import succeeds but the
`ImagePool` constructor throws (line 87 sits outside every try/catch), the
exception escapes instead of degrading to all-unusable. -/

theorem c6_counterexample :
    detectSquooshSupport { nodeMajor := 16, importResult := some none } =
      Except.error "ImagePool constructor threw" := rfl

/-- C6 (amended): a codec is marked usable only if a real probe encode
succeeded with non-empty output; a failed module import returns all codecs
unusable without probing any; a per-codec encode failure marks only that
codec unusable while all six codecs are still probed in order; and every
failure degrades to false for the affected codec — except that an exception
thrown by the `ImagePool` constructor itself (after a successful import)
escapes the function. -/

theorem c6_amended_detect (env : DetectEnv) (hnode : env.nodeMajor < 20) :
    (env.importResult = none →
      detectSquooshSupport env = Except.ok (noSupport, []))
    ∧ (env.importResult = some none →
      detectSquooshSupport env = Except.error "ImagePool constructor threw")
    ∧ (∀ pool, env.importResult = some (some pool) →
        detectSquooshSupport env = Except.ok (probeAll pool, squooshProbeOrder)
        ∧ ((probeAll pool).mozjpeg = true ↔
            ∃ binary, pool.encode "mozjpeg" = EncodeOutcome.ok binary ∧ binary.length ≠ 0)
        ∧ ((probeAll pool).webp = true ↔
            ∃ binary, pool.encode "webp" = EncodeOutcome.ok binary ∧ binary.length ≠ 0)
        ∧ ((probeAll pool).avif = true ↔
            ∃ binary, pool.encode "avif" = EncodeOutcome.ok binary ∧ binary.length ≠ 0)
        ∧ ((probeAll pool).oxipng = true ↔
            ∃ binary, pool.encode "oxipng" = EncodeOutcome.ok binary ∧ binary.length ≠ 0)
        ∧ ((probeAll pool).jxl = true ↔
            ∃ binary, pool.encode "jxl" = EncodeOutcome.ok binary ∧ binary.length ≠ 0)
        ∧ ((probeAll pool).wp2 = true ↔
            ∃ binary, pool.encode "wp2" = EncodeOutcome.ok binary ∧ binary.length ≠ 0)
        ∧ squooshProbeOrder = ["mozjpeg", "webp", "avif", "oxipng", "jxl", "wp2"]) := by
  have hcase : ∀ codec : String, ∀ pool : PoolEnv, (trySquooshEncode pool codec = true ↔
      ∃ binary, pool.encode codec = EncodeOutcome.ok binary ∧ binary.length ≠ 0) := by
    intro codec pool
    unfold trySquooshEncode
    cases henc : pool.encode codec with
    | threw => simp [henc]
    | missing => simp [henc]
    | ok binary => simp [henc, bne_iff_ne]
  have hno : ¬ 20 ≤ env.nodeMajor := not_le.mpr hnode
  refine ⟨?_, ?_, ?_⟩
  · intro h
    unfold detectSquooshSupport
    rw [if_neg hno, h]
  · intro h
    unfold detectSquooshSupport
    rw [if_neg hno, h]
  · intro pool h
    refine ⟨?_, hcase "mozjpeg" pool, hcase "webp" pool, hcase "avif" pool,
      hcase "oxipng" pool, hcase "jxl" pool, hcase "wp2" pool, rfl⟩
    unfold detectSquooshSupport
    rw [if_neg hno, h]

/-- Closed witness for `c6_amended_detect`: a concrete environment with a
failing module load yields all codecs unusable with an empty probe trace. -/

theorem c6_amended_detect_witness :
    detectSquooshSupport { nodeMajor := 16, importResult := none } =
      Except.ok (noSupport, []) :=
  (c6_amended_detect { nodeMajor := 16, importResult := none } (by decide)).1 rfl

/-- C8 (counterexample): the claim that `getSquooshEncodeOptions` clamps the
quality of the direct-scale formats into [1,100] is false: quality 150 passes
through as 150, above the claimed upper bound. -/

theorem c8_counterexample :
    getSquooshEncodeOptions EncoderId.webp 150 = [("quality", (150 : ℚ))]
    ∧ ¬ ((150 : ℚ) ≤ 100) := by
  exact ⟨rfl, by norm_num⟩

/-- C8 (amended): for the direct higher-is-better formats (mozjpeg, webp,
jxl, wp2) the quality value passes through `getSquooshEncodeOptions` as the
identity, with no clamping applied by this function (range enforcement
happens only at interactive prompt validation). -/

theorem c8_amended_direct_scale_identity :
    (∀ q : ℚ, getSquooshEncodeOptions EncoderId.mozjpeg q = [("quality", q)])
    ∧ (∀ q : ℚ, getSquooshEncodeOptions EncoderId.webp q = [("quality", q)])
    ∧ (∀ q : ℚ, getSquooshEncodeOptions EncoderId.jxl q = [("quality", q)])
    ∧ (∀ q : ℚ, getSquooshEncodeOptions EncoderId.wp2 q = [("quality", q)]) :=
  ⟨fun _ => rfl, fun _ => rfl, fun _ => rfl, fun _ => rfl⟩

theorem processOneJob_untouched (env : ProcessEnv) (quality : QualityConfig)
    (file : String) (st : BatchState) (enc : EncoderOption) (id : EncoderId)
    (hid : enc.id ≠ id) :
    (processOneJob env quality file st enc).outputsByEncoder id = st.outputsByEncoder id := by
  unfold processOneJob
  by_cases h : env.jobOk file enc (getQualityForEncoder enc quality) = true
  · simp only [h, if_true]
    exact Function.update_noteq (Ne.symm hid) _ _
  · simp only [h, Bool.false_eq_true, if_false]

theorem processOneJob_jobs (env : ProcessEnv) (quality : QualityConfig)
    (file : String) (st : BatchState) (enc : EncoderOption) :
    (processOneJob env quality file st enc).jobs = st.jobs ++ [(file, enc.id)] := by
  unfold processOneJob
  by_cases h : env.jobOk file enc (getQualityForEncoder enc quality) = true
  · simp only [h, if_true]
  · simp only [h, Bool.false_eq_true, if_false]

theorem foldl_encoders_untouched (env : ProcessEnv) (quality : QualityConfig)
    (file : String) (active : List EncoderOption) (id : EncoderId)
    (hid : ∀ enc ∈ active, enc.id ≠ id) (st : BatchState) :
    ((active.foldl (processOneJob env quality file) st).outputsByEncoder id =
      st.outputsByEncoder id)
    ∧ (∀ f, (f, id) ∈ (active.foldl (processOneJob env quality file) st).jobs →
        (f, id) ∈ st.jobs) := by
  induction active generalizing st with
  | nil => exact ⟨rfl, fun f hf => hf⟩
  | cons enc rest ih =>
    have henc : enc.id ≠ id := hid enc (List.mem_cons_self enc rest)
    have hrest : ∀ e ∈ rest, e.id ≠ id := fun e he => hid e (List.mem_cons_of_mem enc he)
    simp only [List.foldl_cons]
    refine ⟨?_, ?_⟩
    · rw [(ih hrest (processOneJob env quality file st enc)).1,
        processOneJob_untouched env quality file st enc id henc]
    · intro f hf
      have h2 := (ih hrest (processOneJob env quality file st enc)).2 f hf
      rw [processOneJob_jobs] at h2
      rcases List.mem_append.mp h2 with h3 | h3
      · exact h3
      · simp only [List.mem_singleton, Prod.mk.injEq] at h3
        exact absurd h3.2.symm henc

theorem foldl_files_untouched (env : ProcessEnv) (quality : QualityConfig)
    (files : List String) (active : List EncoderOption) (id : EncoderId)
    (hid : ∀ enc ∈ active, enc.id ≠ id) (st : BatchState) :
    ((files.foldl (fun st file => active.foldl (processOneJob env quality file) st)
        st).outputsByEncoder id = st.outputsByEncoder id)
    ∧ (∀ f, (f, id) ∈ (files.foldl
          (fun st file => active.foldl (processOneJob env quality file) st) st).jobs →
        (f, id) ∈ st.jobs) := by
  induction files generalizing st with
  | nil => exact ⟨rfl, fun f hf => hf⟩
  | cons file rest ih =>
    simp only [List.foldl_cons]
    refine ⟨?_, ?_⟩
    · rw [(ih (active.foldl (processOneJob env quality file) st)).1,
        (foldl_encoders_untouched env quality file active id hid st).1]
    · intro f hf
      exact (foldl_encoders_untouched env quality file active id hid st).2 f
        ((ih (active.foldl (processOneJob env quality file) st)).2 f hf)

theorem mem_activeEncodersInit {encoders : List EncoderOption} {e : EncoderOption}
    (h : e ∈ activeEncodersInit encoders) :
    e ∈ encoders ∧ e.encoderType ≠ EncoderType.unsupported := by
  unfold activeEncodersInit at h
  have := List.mem_filter.mp h
  exact ⟨this.1, by simpa [bne_iff_ne] using this.2⟩

theorem mem_activeEncodersInit_of {encoders : List EncoderOption} {e : EncoderOption}
    (h1 : e ∈ encoders) (h2 : e.encoderType ≠ EncoderType.unsupported) :
    e ∈ activeEncodersInit encoders := by
  unfold activeEncodersInit
  exact List.mem_filter.mpr ⟨h1, by simpa [bne_iff_ne] using h2⟩

/-- C7: for a batch with N input files, every selected encoder whose strategy
is 'unsupported' appears in the summary's unsupported list with a skipped
count of exactly N, no job is ever created for it, and its output counter
stays 0.  (The id-uniqueness hypothesis mirrors the catalog, where each id
occurs once.) -/

theorem c7_unsupported_fully_skipped (env : ProcessEnv) (inputFiles : List String)
    (encoders : List EncoderOption) (quality : QualityConfig) (enc : EncoderOption)
    (henc : enc ∈ encoders) (hty : enc.encoderType = EncoderType.unsupported)
    (hid : ∀ e ∈ encoders, e.id = enc.id → e.encoderType = EncoderType.unsupported) :
    (enc.id, enc.label, inputFiles.length) ∈
        (processImages env inputFiles encoders quality).unsupported
    ∧ (∀ f, (f, enc.id) ∉ (processImages env inputFiles encoders quality).jobs)
    ∧ (processImages env inputFiles encoders quality).outputsByEncoder enc.id = 0 := by
  have hmem0 : (enc.id, enc.label, inputFiles.length) ∈
      unsupportedInit encoders inputFiles.length := by
    unfold unsupportedInit
    exact List.mem_map.mpr ⟨enc,
      List.mem_filter.mpr ⟨henc, by simp [hty]⟩, rfl⟩
  have hmem : (enc.id, enc.label, inputFiles.length) ∈
      unsupportedFinal env encoders inputFiles.length := by
    unfold unsupportedFinal
    by_cases hp : poolFailed env encoders = true
    · rw [if_pos hp]
      exact List.mem_append_left _ hmem0
    · rw [if_neg hp]
      exact hmem0
  have hactive : ∀ e ∈ activeEncodersFinal env encoders, e.id ≠ enc.id := by
    intro e he heq
    have he0 : e ∈ activeEncodersInit encoders := by
      unfold activeEncodersFinal at he
      by_cases hp : poolFailed env encoders = true
      · rw [if_pos hp] at he
        exact (List.mem_filter.mp he).1
      · rwa [if_neg hp] at he
    have h2 := mem_activeEncodersInit he0
    exact h2.2 (hid e h2.1 heq)
  have huntouched := foldl_files_untouched env quality inputFiles
    (activeEncodersFinal env encoders) enc.id hactive
    { outputsByEncoder := fun _ => 0, failures := [], jobs := [] }
  refine ⟨hmem, ?_, ?_⟩
  · intro f hf
    have := huntouched.2 f hf
    simp at this
  · exact huntouched.1

/-- Closed witness for `c7_unsupported_fully_skipped`: a selected QOI encoder
(always unsupported) in a one-file batch is skipped with count 1. -/

theorem c7_unsupported_fully_skipped_witness :
    (EncoderId.qoi, "QOI", 1) ∈
      (processImages { poolCtorOk := true, jobOk := fun _ _ _ => true } ["/in/a.png"]
        [{ id := EncoderId.qoi, label := "QOI", ext := "qoi", lossy := false,
           supportsQuality := false, encoderType := EncoderType.unsupported },
         { id := EncoderId.browserJpeg, label := "Browser JPEG", ext := "jpg",
           lossy := true, supportsQuality := true, encoderType := EncoderType.sharp,
           sharpFormat := some SharpFormat.jpeg }]
        { defaultQuality := 75, overrides := fun _ => none }).unsupported :=
  (c7_unsupported_fully_skipped { poolCtorOk := true, jobOk := fun _ _ _ => true }
    ["/in/a.png"]
    [{ id := EncoderId.qoi, label := "QOI", ext := "qoi", lossy := false,
       supportsQuality := false, encoderType := EncoderType.unsupported },
     { id := EncoderId.browserJpeg, label := "Browser JPEG", ext := "jpg",
       lossy := true, supportsQuality := true, encoderType := EncoderType.sharp,
       sharpFormat := some SharpFormat.jpeg }]
    { defaultQuality := 75, overrides := fun _ => none }
    { id := EncoderId.qoi, label := "QOI", ext := "qoi", lossy := false,
      supportsQuality := false, encoderType := EncoderType.unsupported }
    (by decide) (by decide) (by decide)).1

/-- C4: if the advanced-codec pool fails to construct at batch time, every
selected squoosh-typed encoder is removed from the active set (never gets a
job, its output counter stays 0, and it is not among the encoders the batch
loop runs), is folded into the unsupported accounting with a skipped count
equal to the number of input files, and the batch still returns a summary
covering all inputs. -/

theorem c4_pool_failure_downgrade (env : ProcessEnv) (inputFiles : List String)
    (encoders : List EncoderOption) (quality : QualityConfig) (enc : EncoderOption)
    (hpool : env.poolCtorOk = false)
    (henc : enc ∈ encoders) (hty : enc.encoderType = EncoderType.squoosh)
    (hid : ∀ e ∈ encoders, e.id = enc.id →
      e.encoderType = EncoderType.squoosh ∨ e.encoderType = EncoderType.unsupported) :
    (enc.id, enc.label, inputFiles.length) ∈
        (processImages env inputFiles encoders quality).unsupported
    ∧ enc ∉ activeEncodersFinal env encoders
    ∧ (∀ f, (f, enc.id) ∉ (processImages env inputFiles encoders quality).jobs)
    ∧ (processImages env inputFiles encoders quality).outputsByEncoder enc.id = 0
    ∧ (processImages env inputFiles encoders quality).totalInputs = inputFiles.length := by
  have henc0 : enc ∈ activeEncodersInit encoders :=
    mem_activeEncodersInit_of henc (by rw [hty]; intro h; cases h)
  have hneeds : needsSquoosh encoders = true := by
    unfold needsSquoosh
    exact List.any_eq_true.mpr ⟨enc, henc0, by simp [hty]⟩
  have hfail : poolFailed env encoders = true := by
    unfold poolFailed
    rw [hneeds, hpool]
    rfl
  have hmem : (enc.id, enc.label, inputFiles.length) ∈
      unsupportedFinal env encoders inputFiles.length := by
    unfold unsupportedFinal
    rw [if_pos hfail]
    refine List.mem_append_right _ ?_
    exact List.mem_map.mpr ⟨enc, List.mem_filter.mpr ⟨henc0, by simp [hty]⟩, rfl⟩
  have hnotactive : enc ∉ activeEncodersFinal env encoders := by
    unfold activeEncodersFinal
    rw [if_pos hfail]
    intro h
    have := (List.mem_filter.mp h).2
    rw [hty] at this
    simp at this
  have hactive : ∀ e ∈ activeEncodersFinal env encoders, e.id ≠ enc.id := by
    intro e he heq
    unfold activeEncodersFinal at he
    rw [if_pos hfail] at he
    have h1 := List.mem_filter.mp he
    have h2 := mem_activeEncodersInit h1.1
    rcases hid e h2.1 heq with h3 | h3
    · rw [h3] at h1
      simpa using h1.2
    · exact h2.2 h3
  have huntouched := foldl_files_untouched env quality inputFiles
    (activeEncodersFinal env encoders) enc.id hactive
    { outputsByEncoder := fun _ => 0, failures := [], jobs := [] }
  refine ⟨hmem, hnotactive, ?_, huntouched.1, rfl⟩
  intro f hf
  have := huntouched.2 f hf
  simp at this

/-- Closed witness for `c4_pool_failure_downgrade`: a squoosh WebP selection
in a one-file batch with a failing pool constructor is skipped with count 1. -/

theorem c4_pool_failure_downgrade_witness :
    (EncoderId.webp, "WebP", 1) ∈
      (processImages { poolCtorOk := false, jobOk := fun _ _ _ => true } ["/in/a.png"]
        [{ id := EncoderId.webp, label := "WebP", ext := "webp", lossy := true,
           supportsQuality := true, encoderType := EncoderType.squoosh,
           squooshCodec := some "webp" },
         { id := EncoderId.original, label := "Original image (copy)", ext := "original",
           lossy := false, supportsQuality := false, encoderType := EncoderType.copy }]
        { defaultQuality := 75, overrides := fun _ => none }).unsupported :=
  (c4_pool_failure_downgrade { poolCtorOk := false, jobOk := fun _ _ _ => true }
    ["/in/a.png"]
    [{ id := EncoderId.webp, label := "WebP", ext := "webp", lossy := true,
       supportsQuality := true, encoderType := EncoderType.squoosh,
       squooshCodec := some "webp" },
     { id := EncoderId.original, label := "Original image (copy)", ext := "original",
       lossy := false, supportsQuality := false, encoderType := EncoderType.copy }]
    { defaultQuality := 75, overrides := fun _ => none }
    { id := EncoderId.webp, label := "WebP", ext := "webp", lossy := true,
      supportsQuality := true, encoderType := EncoderType.squoosh,
      squooshCodec := some "webp" }
    rfl (by decide) (by decide) (by decide)).1

/-- C9: the claim that an unreadable or schema-mismatched persisted record
degrades to "treat as absent" and never crashes is violated by the code: a
valid-JSON record that misses the `{selectedIds, quality}` schema (here the
file content `{}`) is returned as-is by `loadSavedConfig` instead of null,
and the subsequent `--yes` use of it throws a TypeError that kills the run.
(Only read/parse exceptions degrade to null.) -/

theorem c9_schema_mismatch_crashes :
    matchesSavedConfigSchema (Json.obj []) = false
    ∧ loadSavedConfig (some (Json.obj [])) = some (Json.obj [])
    ∧ loadSavedConfig (some (Json.obj [])) ≠ none
    ∧ mainYesStep (loadSavedConfig (some (Json.obj []))) ["avif", "mozjpeg"] =
        Except.error "TypeError: savedConfig.selectedIds.filter is not a function"
    ∧ loadSavedConfig none = none := by
  refine ⟨rfl, rfl, ?_, rfl, rfl⟩
  intro h
  cases h

end Squoosh
